import Mathlib

/-!
Verification development for the grid-reconstruction and cell-quantization
pipeline of the generative-pixel-art repository.

The Lean definitions below are shallow embeddings of the Python functions in
`src/proper_pixel_art/mesh.py`, `src/proper_pixel_art/colors.py`,
`src/gen_pixel_art/grid.py`, `src/gen_pixel_art/utils.py` and
`src/gen_pixel_art/resolution_finder.py`.  Python/NumPy floating-point values
are modelled by exact rationals (`ℚ`); machine integers by `ℤ`/`ℕ`.
-/

/-- Python `int(...)` applied to a float: truncation toward zero. -/
def truncQ (q : ℚ) : ℤ := if q < 0 then ⌈q⌉ else ⌊q⌋

/-- `np.round` on a scalar: round half to even (banker's rounding). -/
def roundHE (q : ℚ) : ℤ :=
  if q - (⌊q⌋ : ℚ) < 1/2 then ⌊q⌋
  else if (1 : ℚ)/2 < q - (⌊q⌋ : ℚ) then ⌊q⌋ + 1
  else if ⌊q⌋ % 2 = 0 then ⌊q⌋ else ⌊q⌋ + 1

/-- Adjacent pairs of a list: `[(l0,l1),(l1,l2),...]`.  Used to model both
`np.diff` (via the gap `p.2 - p.1`) and per-gap iteration. -/
def adjPairs : List ℤ → List (ℤ × ℤ)
  | [] => []
  | [_] => []
  | a :: b :: rest => (a, b) :: adjPairs (b :: rest)

/-- `np.diff` on a list of integers. -/
def diffsZ (l : List ℤ) : List ℤ := (adjPairs l).map (fun p => p.2 - p.1)

/-- `int(np.median(cluster))` for a list of integers: NumPy's median of the
sorted values (middle element, or the mean of the two middle elements for even
length, a float), then Python `int` truncation toward zero. -/
def intMedian (c : List ℤ) : ℤ :=
  let s := List.insertionSort (· ≤ ·) c
  let n := s.length
  if n % 2 = 1 then s.getD (n / 2) 0
  else truncQ (((s.getD (n / 2 - 1) 0 + s.getD (n / 2) 0 : ℤ) : ℚ) / 2)

/-- `np.median` on a list of integers, kept as an exact rational. -/
def medianQ (l : List ℤ) : ℚ :=
  let s := List.insertionSort (· ≤ ·) l
  let n := s.length
  if n % 2 = 1 then ((s.getD (n / 2) 0 : ℤ) : ℚ)
  else ((s.getD (n / 2 - 1) 0 + s.getD (n / 2) 0 : ℤ) : ℚ) / 2

/-- Tail of `cluster_lines` (`mesh.py` lines 21-26): greedy chained grouping of
an ascending list.  `curRev` is the current cluster in reverse order (its head
is the last value appended, i.e. Python's `clusters[-1][-1]`). -/
def clusterGroups (t : ℤ) (curRev : List ℤ) : List ℤ → List (List ℤ)
  | [] => [curRev.reverse]
  | p :: rest =>
    if |p - curRev.headD 0| ≤ t then clusterGroups t (p :: curRev) rest
    else curRev.reverse :: clusterGroups t [p] rest

/-- `cluster_lines` (`mesh.py` lines 16-28, identical in `grid.py`):
sort ascending, group values where each lies within `threshold` of the last
value of the current group, return the integer median of each group. -/
def cluster_lines (lines : List ℤ) (threshold : ℤ) : List ℤ :=
  match List.insertionSort (· ≤ ·) lines with
  | [] => []
  | a :: rest => (clusterGroups threshold [a] rest).map intMedian

/-- One section of `homogenize_lines` (`mesh.py` lines 108-119): partition the
gap `sectionWidth` after `lineStart` into `int(np.round(sectionWidth /
pixel_width))` pieces; `section_pixel_width` is set to `0` when that count is
zero (the guard at lines 111-112). -/
def sectionL (lineStart sectionWidth : ℤ) (pw : ℚ) : List ℤ :=
  let numPixels := roundHE ((sectionWidth : ℚ) / pw)
  let spw : ℚ := if numPixels = 0 then 0 else (sectionWidth : ℚ) / (numPixels : ℚ)
  (List.range numPixels.toNat).map (fun n : ℕ => lineStart + truncQ ((n : ℚ) * spw))

/-- `homogenize_lines` (`mesh.py` lines 101-125): subdivide every adjacent gap
and append the original last coordinate.  Python raises `IndexError` on the
empty list (`lines[-1]`); the claims only concern inputs of length ≥ 2, and the
model returns `[]` there. -/
def homogenize_lines (lines : List ℤ) (pw : ℚ) : List ℤ :=
  match lines.getLast? with
  | none => []
  | some lastLine =>
    ((adjPairs lines).flatMap (fun p => sectionL p.1 (p.2 - p.1) pw)) ++ [lastLine]

/-- One section of `complete_grid` (`grid.py` lines 94-102).  Unlike
`homogenize_lines` there is no zero guard: when `num_pixels = 0`, NumPy scalar
division `section_width / 0` emits a RuntimeWarning and yields `inf` (it does
not raise); that value is never consumed because `range(0)` is empty.  The
model's `ℚ` division-by-zero convention (`x / 0 = 0`) therefore never reaches
an output value either. -/
def sectionCG (lineStart sectionWidth : ℤ) (pw : ℚ) : List ℤ :=
  let numPixels := roundHE ((sectionWidth : ℚ) / pw)
  let spw : ℚ := (sectionWidth : ℚ) / (numPixels : ℚ)
  (List.range numPixels.toNat).map (fun n : ℕ => lineStart + truncQ ((n : ℚ) * spw))

/-- `complete_grid` (`grid.py` lines 87-108): the historical variant of
`homogenize_lines`, without the `num_pixels == 0` guard. -/
def complete_grid (lines : List ℤ) (pw : ℚ) : List ℤ :=
  match lines.getLast? with
  | none => []
  | some lastLine =>
    ((adjPairs lines).flatMap (fun p => sectionCG p.1 (p.2 - p.1) pw)) ++ [lastLine]

/-- Whether evaluating `complete_grid` performs a division by zero
(`section_width / num_pixels` with `num_pixels = 0`), i.e. whether some gap
rounds to zero subdivisions.  NumPy reports this as a RuntimeWarning and
produces `inf`/`nan`, not an exception. -/
def complete_grid_divzero (lines : List ℤ) (pw : ℚ) : Bool :=
  (adjPairs lines).any (fun p => roundHE (((p.2 - p.1 : ℤ) : ℚ) / pw) = 0)

/-- `np.percentile(l, p)` with the default linear interpolation:
`h = p/100 * (n-1)`, result `s[⌊h⌋] + (h - ⌊h⌋) * (s[⌊h⌋+1] - s[⌊h⌋])` on the
ascending sort `s`.  NumPy returns `nan` (with a warning) on an empty sample
and rejects `p` outside `[0,100]`; the claims only use nonempty samples and
`p ∈ {20, 80}`, and the model returns `0` outside those cases. -/
def percentileQ (l : List ℤ) (p : ℚ) : ℚ :=
  let s := List.insertionSort (· ≤ ·) l
  let n := s.length
  if n = 0 then 0
  else
    let hpos : ℚ := p / 100 * ((n : ℚ) - 1)
    let i := ⌊hpos⌋
    if 0 ≤ i ∧ i + 1 < (n : ℤ) then
      ((s.getD i.toNat 0 : ℤ) : ℚ) +
        (hpos - (i : ℚ)) * ((s.getD (i.toNat + 1) 0 - s.getD i.toNat 0 : ℤ) : ℚ)
    else ((s.getD (n - 1) 0 : ℤ) : ℚ)

/-- `get_pixel_width` (`mesh.py` lines 73-99, identical in `grid.py` lines
72-85): pool the adjacent gaps of both axes, keep the gaps inside the
`[100·f, 100·(1-f)]` percentile band (falling back to all gaps when the band is
empty), and return their median.  The float default `trim_outlier_fraction =
0.2` is modelled by the exact rational `1/5`. -/
def get_pixel_width (lines_x lines_y : List ℤ) (trimFrac : ℚ) : ℚ :=
  let gaps := diffsZ lines_x ++ diffsZ lines_y
  let lowQ := percentileQ gaps (100 * trimFrac)
  let hiQ := percentileQ gaps (100 * (1 - trimFrac))
  let middle := gaps.filter (fun g : ℤ => decide (lowQ ≤ (g : ℚ) ∧ (g : ℚ) ≤ hiQ))
  medianQ (if middle.isEmpty then gaps else middle)

/-- An RGB triple, as held in a `uint8` image array. -/
abbrev Color : Type := ℕ × ℕ × ℕ

/-- An RGB image: height, width, and pixel access `px row col` in NumPy's
row-major order (`rgb[y, x]`). -/
structure RgbImg where
  h : ℕ
  w : ℕ
  px : ℕ → ℕ → Color

/-- The pixel block `rgb[y0:y1, x0:x1]` flattened row-major, as produced by
`cell_pixels.reshape(-1, 3)` in `get_cell_color`.  NumPy slicing clamps the
stop indices at the array extent. -/
def cellPixels (img : RgbImg) (x0 x1 y0 y1 : ℕ) : List Color :=
  (List.range' y0 (min y1 img.h - y0)).flatMap
    (fun y => (List.range' x0 (min x1 img.w - x0)).map (fun x => img.px y x))

/-- The distinct values of a list in order of first occurrence: the key order
of a Python `Counter` (an insertion-ordered dict). -/
def keysFirst : List Color → List Color
  | [] => []
  | c :: rest => c :: keysFirst (rest.filter (fun d => d ≠ c))
termination_by l => l.length
decreasing_by simp only [List.length_cons]; exact Nat.lt_succ_of_le (List.length_filter_le _ _)

/-- `Counter(flat).most_common(1)` (`colors.py` line 31): the first key, in
first-occurrence order, whose multiplicity is maximal.  `most_common` sorts the
counter items (insertion-ordered) stably by descending count, so ties go to the
earliest-seen key.  Returns `none` exactly when the list is empty, where Python
raises `IndexError` on the `[0][0]` subscript. -/
def mostCommon1 (l : List Color) : Option Color :=
  let ks := keysFirst l
  let m := (ks.map (fun k => l.count k)).foldr max 0
  ks.find? (fun k => l.count k = m)

/-- `get_cell_color` (`colors.py` lines 24-31): most frequent RGB triple of a
pixel block; raises (`IndexError`) on an empty block. -/
def get_cell_color (cellPx : List Color) : Except String Color :=
  match mostCommon1 cellPx with
  | some c => Except.ok c
  | none => Except.error "IndexError: most_common of empty cell"

/-- Left-to-right effectful map over `Except`, the shape of the nested
`for j ... for i ...` loops of `downsample`: the first raised error aborts. -/
def mapME {α β : Type} : List α → (α → Except String β) → Except String (List β)
  | [], _ => Except.ok []
  | a :: rest, f =>
    match f a, mapME rest f with
    | Except.ok b, Except.ok bs => Except.ok (b :: bs)
    | Except.error e, _ => Except.error e
    | _, Except.error e => Except.error e

/-- `downsample` (`colors.py` lines 47-68), the mode-color grid: one output row
per index `j < len(lines_y) - 1`, one entry per `i < len(lines_x) - 1`, each
the mode color of the block `rgb[lines_y[j]:lines_y[j+1],
lines_x[i]:lines_x[i+1]]`.  The optional transparent-background flood fill is
an external post-process and is not modelled. -/
def downsample (img : RgbImg) (lines_x lines_y : List ℕ) :
    Except String (List (List Color)) :=
  mapME (List.range (lines_y.length - 1)) (fun j =>
    mapME (List.range (lines_x.length - 1)) (fun i =>
      get_cell_color (cellPixels img (lines_x.getD i 0) (lines_x.getD (i + 1) 0)
        (lines_y.getD j 0) (lines_y.getD (j + 1) 0))))

/-- A NumPy image array of shape `(h, w, c)` with rational entries, the view
`np.asarray(img, dtype=np.float32)` of a PIL image. -/
structure NDImg where
  h : ℕ
  w : ℕ
  c : ℕ
  px : ℕ → ℕ → ℕ → ℚ

/-- PIL `Image.crop((l, t, r, b))`: an image of size `(r - l, b - t)` whose
pixels come from the source where in bounds and are `0` (black/transparent)
elsewhere. -/
def cropImg (img : NDImg) (l t r b : ℤ) : NDImg where
  h := (b - t).toNat
  w := (r - l).toNat
  c := img.c
  px := fun y x ch =>
    if 0 ≤ t + (y : ℤ) ∧ t + (y : ℤ) < (img.h : ℤ) ∧ 0 ≤ l + (x : ℤ) ∧ l + (x : ℤ) < (img.w : ℤ)
    then img.px (t + (y : ℤ)).toNat (l + (x : ℤ)).toNat ch else 0

/-- The optional `region_box` crop at the top of `compute_mse`. -/
def regionOf (img : NDImg) (box : Option (ℤ × ℤ × ℤ × ℤ)) : NDImg :=
  match box with
  | some (l, t, r, b) => cropImg img l t r b
  | none => img

/-- `np.mean((arr_full - arr_test) ** 2)` over two same-shape arrays, iterating
the shape of the first.  The model's `ℚ` convention gives `0` for the empty
array, where NumPy warns and yields `nan`. -/
def meanSq (a b : NDImg) : ℚ :=
  (((List.range a.h).map (fun y =>
    ((List.range a.w).map (fun x =>
      ((List.range a.c).map (fun ch => (a.px y x ch - b.px y x ch) ^ 2)).sum)).sum)).sum) /
  ((a.h * a.w * a.c : ℕ) : ℚ)

/-- `compute_mse` (`gen_pixel_art/utils.py` lines 129-151): crop both images to
`region_box` when given, raise `ValueError` exactly when the resulting array
shapes differ, otherwise return the mean of squared differences. -/
def compute_mse (image1 image2 : NDImg) (regionBox : Option (ℤ × ℤ × ℤ × ℤ)) :
    Except String ℚ :=
  let regionFull := regionOf image1 regionBox
  let regionTest := regionOf image2 regionBox
  if regionFull.h = regionTest.h ∧ regionFull.w = regionTest.w ∧ regionFull.c = regionTest.c
  then Except.ok (meanSq regionFull regionTest)
  else Except.error "Shapes do not match."

/-- Python `range(-m, m+1)`, the offset window of
`estimate_scale_factor_with_offset`. -/
def offsetWindow (m : ℕ) : List ℤ :=
  (List.range (2 * m + 1)).map (fun i : ℕ => (i : ℤ) - (m : ℤ))

/-- The scale loop `for scale in range(3, max_scale + 1)` together with its
`break` when `scale > width or scale > height`. -/
def scaleCands (w h maxScale : ℕ) : List ℕ :=
  (List.range' 3 (maxScale - 2)).takeWhile (fun s => decide (s ≤ w ∧ s ≤ h))

/-- `region_width = (width - offset_x) // scale * scale` (Python floor
division). -/
def regionW (w : ℕ) (ox : ℤ) (s : ℕ) : ℤ :=
  Int.fdiv ((w : ℤ) - ox) (s : ℤ) * (s : ℤ)

/-- The two `continue` guards of the inner loop: positive region size, and
down-scaled size at least 1. -/
def validCand (w h s : ℕ) (oy ox : ℤ) : Bool :=
  decide (0 < regionW w ox s) && decide (0 < regionW h oy s) &&
  decide (1 ≤ Int.fdiv (regionW w ox s) (s : ℤ)) && decide (1 ≤ Int.fdiv (regionW h oy s) (s : ℤ))

/-- The `(scale, offset_y, offset_x)` triples that receive an MSE, in exact
iteration order: scale ascending (outer), then `offset_y`, then `offset_x`
ascending, skipping the `continue` guards. -/
def candTriples (w h maxScale maxOffset : ℕ) : List (ℕ × ℤ × ℤ) :=
  (scaleCands w h maxScale).flatMap (fun s =>
    (offsetWindow maxOffset).flatMap (fun oy =>
      ((offsetWindow maxOffset).filter (fun ox => validCand w h s oy ox)).map
        (fun ox => (s, oy, ox))))

/-- PIL `resize((dw, dh), Image.Resampling.BOX)` for an exact integer factor
`s` (`dw*s = src.w`, `dh*s = src.h`): each output pixel is the average of its
`s × s` source block.  PIL additionally rounds the average back to `uint8`;
the model keeps the exact rational value. -/
def boxDownscale (src : NDImg) (s dw dh : ℕ) : NDImg where
  h := dh
  w := dw
  c := src.c
  px := fun y x ch =>
    (((List.range s).map (fun dy =>
      ((List.range s).map (fun dx => src.px (y * s + dy) (x * s + dx) ch)).sum)).sum) /
    ((s * s : ℕ) : ℚ)

/-- PIL `resize(..., Image.Resampling.NEAREST)` for an exact integer upscale
factor `s`: output pixel `(y, x)` samples source pixel `(y / s, x / s)`. -/
def nearestUpscale (src : NDImg) (s : ℕ) : NDImg where
  h := src.h * s
  w := src.w * s
  c := src.c
  px := fun y x ch => src.px (y / s) (x / s) ch

/-- `Image.new(mode, (w, h))` followed by `paste(up, (l, t))`: a zero canvas
with `up` pasted at offset `(l, t)`, clipped to the canvas. -/
def pasteOnBlank (w h c : ℕ) (up : NDImg) (l t : ℤ) : NDImg where
  h := h
  w := w
  c := c
  px := fun y x ch =>
    if 0 ≤ (y : ℤ) - t ∧ (y : ℤ) - t < (up.h : ℤ) ∧ 0 ≤ (x : ℤ) - l ∧ (x : ℤ) - l < (up.w : ℤ)
    then up.px ((y : ℤ) - t).toNat ((x : ℤ) - l).toNat ch else 0

/-- The body of the innermost loop of `estimate_scale_factor_with_offset`
(`resolution_finder.py` lines 103-138) for one candidate `(scale, oy, ox)`:
crop the region, BOX-downscale, NEAREST-upscale, paste onto a blank canvas at
the same offset and take the MSE over the region box.  The two cropped arrays
always have the same shape `(region_h, region_w, c)`, so `compute_mse` cannot
raise here; the `error` arm is dead code kept only to consume the `Except`. -/
def mseOf (img : NDImg) (cand : ℕ × ℤ × ℤ) : ℚ :=
  let s := cand.1
  let oy := cand.2.1
  let ox := cand.2.2
  let rw := regionW img.w ox s
  let rh := regionW img.h oy s
  let cropped := cropImg img ox oy (ox + rw) (oy + rh)
  let dw := (Int.fdiv rw (s : ℤ)).toNat
  let dh := (Int.fdiv rh (s : ℤ)).toNat
  let down := boxDownscale cropped s dw dh
  let up := nearestUpscale down s
  let test := pasteOnBlank img.w img.h img.c up ox oy
  match compute_mse img test (some (ox, oy, ox + rw, oy + rh)) with
  | Except.ok q => q
  | Except.error _ => 0

/-- The mutable best-so-far of the search loop: `best_scale`, `best_offset =
(offset_x, offset_y)` and `best_mse_val`, with `none` standing for the initial
`float('inf')`.  The downscaled `best_img` is carried along unexamined. -/
structure SearchState where
  scale : ℕ
  offset : ℤ × ℤ
  mse : Option ℚ
  img : Option NDImg

/-- One iteration of the tracking update (`resolution_finder.py` lines
141-145): replace the best candidate only on strictly smaller MSE. -/
def searchStep (f : ℕ × ℤ × ℤ → ℚ) (d : ℕ × ℤ × ℤ → Option NDImg)
    (st : SearchState) (cand : ℕ × ℤ × ℤ) : SearchState :=
  match st.mse with
  | none => ⟨cand.1, (cand.2.2, cand.2.1), some (f cand), d cand⟩
  | some b => if f cand < b then ⟨cand.1, (cand.2.2, cand.2.1), some (f cand), d cand⟩ else st

/-- The search loop folded over a candidate list from the initial state
`best_scale = 1`, `best_offset = (0, 0)`, `best_mse_val = inf`,
`best_img = None`. -/
def searchFold (f : ℕ × ℤ × ℤ → ℚ) (d : ℕ × ℤ × ℤ → Option NDImg)
    (l : List (ℕ × ℤ × ℤ)) : SearchState :=
  l.foldl (searchStep f d) ⟨1, (0, 0), none, none⟩

/-- The downscaled image of a candidate, as stored into `best_img`. -/
def downOf (img : NDImg) (cand : ℕ × ℤ × ℤ) : Option NDImg :=
  some (boxDownscale
    (cropImg img cand.2.2 cand.2.1 (cand.2.2 + regionW img.w cand.2.2 cand.1)
      (cand.2.1 + regionW img.h cand.2.1 cand.1))
    cand.1 (Int.fdiv (regionW img.w cand.2.2 cand.1) (cand.1 : ℤ)).toNat
    (Int.fdiv (regionW img.h cand.2.1 cand.1) (cand.1 : ℤ)).toNat)

/-- `estimate_scale_factor_with_offset` (`resolution_finder.py` lines 63-147):
exhaustive search over the candidate triples in iteration order, tracking the
best candidate. -/
def estimate_scale_factor_with_offset (img : NDImg) (maxScale maxOffset : ℕ) :
    SearchState :=
  searchFold (mseOf img) (downOf img) (candTriples img.w img.h maxScale maxOffset)

/-- The value delivered by `get_cell_color` for cell `(j, i)` of the mesh when
the cell is nonempty (the `Option` default is never reached there). -/
def cellColorAt (img : RgbImg) (lines_x lines_y : List ℕ) (j i : ℕ) : Color :=
  (mostCommon1 (cellPixels img (lines_x.getD i 0) (lines_x.getD (i + 1) 0)
    (lines_y.getD j 0) (lines_y.getD (j + 1) 0))).getD (0, 0, 0)

/-- Loop invariant of the best-candidate tracking: after the candidates `done`
have been examined, the state holds the first candidate of `done` attaining the
minimal score (and `none` only before any candidate was examined). -/
def SearchInv (f : ℕ × ℤ × ℤ → ℚ) (done : List (ℕ × ℤ × ℤ)) (st : SearchState) : Prop :=
  (st.mse = none → done = [] ∧ st.scale = 1 ∧ st.offset = (0, 0)) ∧
  (∀ q, st.mse = some q →
    ∃ pre c suf, done = pre ++ c :: suf ∧ f c = q ∧ st.scale = c.1 ∧
      st.offset = (c.2.2, c.2.1) ∧ (∀ e ∈ pre, q < f e) ∧ (∀ e ∈ done, q ≤ f e))

/-- Concrete inputs used to instantiate the theorems below. -/
def rampImg3 : NDImg where
  h := 3
  w := 3
  c := 1
  px := fun y x _ => ((y * 3 + x : ℕ) : ℚ)

def constImgA : NDImg where
  h := 1
  w := 1
  c := 1
  px := fun _ _ _ => 3

def constImgB : NDImg where
  h := 1
  w := 1
  c := 1
  px := fun _ _ _ => 5

def solidRgb2 : RgbImg where
  h := 2
  w := 2
  px := fun _ _ => (7, 7, 7)

/-! ### Basic numeric lemmas -/

theorem truncQ_bounds {q : ℚ} {a b : ℤ} (ha : (a : ℚ) ≤ q) (hb : q ≤ (b : ℚ)) :
    a ≤ truncQ q ∧ truncQ q ≤ b := by
  unfold truncQ
  split
  · constructor
    · exact_mod_cast (Int.ceil_intCast (α := ℚ) a) ▸ Int.ceil_mono ha
    · exact Int.ceil_le.mpr hb
  · constructor
    · exact Int.le_floor.mpr ha
    · exact_mod_cast (Int.floor_intCast (α := ℚ) b) ▸ Int.floor_mono hb

theorem truncQ_zero : truncQ 0 = 0 := rfl

theorem roundHE_cases (q : ℚ) : roundHE q = ⌊q⌋ ∨ roundHE q = ⌊q⌋ + 1 := by
  unfold roundHE
  split
  · exact Or.inl rfl
  · split
    · exact Or.inr rfl
    · split
      · exact Or.inl rfl
      · exact Or.inr rfl

theorem roundHE_ge_one {q : ℚ} (h : 1 ≤ q) : 1 ≤ roundHE q := by
  have hf : 1 ≤ ⌊q⌋ := Int.le_floor.mpr (by exact_mod_cast h)
  rcases roundHE_cases q with hc | hc <;> omega

/-! ### `adjPairs` and list plumbing -/

theorem adjPairs_length : ∀ l : List ℤ, (adjPairs l).length = l.length - 1
  | [] => rfl
  | [_] => rfl
  | a :: b :: rest => by
    have := adjPairs_length (b :: rest)
    simp only [adjPairs, List.length_cons] at *
    omega

theorem adjPairs_rel {R : ℤ → ℤ → Prop} :
    ∀ l : List ℤ, List.Chain' R l → ∀ p ∈ adjPairs l, R p.1 p.2
  | [], _, _, hp => by simp [adjPairs] at hp
  | [_], _, _, hp => by simp [adjPairs] at hp
  | a :: b :: rest, hc, p, hp => by
    rw [List.chain'_cons] at hc
    rcases List.mem_cons.mp hp with hp | hp
    · exact hp ▸ hc.1
    · exact adjPairs_rel (b :: rest) hc.2 p hp

theorem adjPairs_cons (a b : ℤ) (rest : List ℤ) :
    adjPairs (a :: b :: rest) = (a, b) :: adjPairs (b :: rest) := rfl

theorem getLastD_mem : ∀ (l : List ℤ) (d : ℤ), l ≠ [] → l.getLastD d ∈ l
  | [], _, h => absurd rfl h
  | [a], d, _ => by simp
  | a :: b :: rest, d, _ => by
    have := getLastD_mem (b :: rest) a (by simp)
    simp only [List.getLastD_eq_getLast?, List.getLast?_cons_cons] at *
    exact List.mem_cons_of_mem a this

theorem length_le_sum_of_one_le {α : Type} (f : α → ℕ) :
    ∀ l : List α, (∀ a ∈ l, 1 ≤ f a) → l.length ≤ (l.map f).sum
  | [], _ => le_refl 0
  | a :: rest, h => by
    have h1 : 1 ≤ f a := h a (List.mem_cons_self a rest)
    have h2 := length_le_sum_of_one_le f rest (fun x hx => h x (List.mem_cons_of_mem a hx))
    simp only [List.length_cons, List.map_cons, List.sum_cons]
    omega

/-! ### `homogenize_lines` and `complete_grid` -/

theorem sectionL_length (a w : ℤ) (pw : ℚ) :
    (sectionL a w pw).length = (roundHE ((w : ℚ) / pw)).toNat := by
  simp [sectionL]

theorem sectionL_head (a w : ℤ) (pw : ℚ) (h : 1 ≤ roundHE ((w : ℚ) / pw)) :
    (sectionL a w pw).head? = some a := by
  unfold sectionL
  simp only [List.head?_map]
  rcases Nat.exists_eq_succ_of_ne_zero (n := (roundHE ((w : ℚ) / pw)).toNat) (by omega) with ⟨k, hk⟩
  rw [hk, List.range_succ_eq_map]
  simp [truncQ_zero]

theorem sectionCG_eq_sectionL (a w : ℤ) (pw : ℚ) :
    sectionCG a w pw = sectionL a w pw := by
  unfold sectionCG sectionL
  by_cases h : roundHE ((w : ℚ) / pw) = 0
  · simp [h]
  · simp [h]

/-- The two historical gap-filling variants compute the same output on every
input: their only difference is the unused `section_pixel_width` value of a
zero-subdivision gap. -/
theorem complete_grid_eq_homogenize_lines (lines : List ℤ) (pw : ℚ) :
    complete_grid lines pw = homogenize_lines lines pw := by
  unfold complete_grid homogenize_lines
  cases lines.getLast? with
  | none => rfl
  | some lastLine =>
    simp only
    congr 1
    apply List.flatMap_congr
    intro p _
    exact sectionCG_eq_sectionL p.1 (p.2 - p.1) pw

theorem homogenize_lines_getLastD (lines : List ℤ) (pw : ℚ) (hne : lines ≠ []) :
    (homogenize_lines lines pw).getLastD 0 = lines.getLastD 0 := by
  cases hx : lines.getLast? with
  | none => exact absurd (List.getLast?_eq_none_iff.mp hx) hne
  | some x =>
    unfold homogenize_lines
    rw [hx]
    simp only [List.getLastD_eq_getLast?, List.getLast?_concat, hx]

theorem homogenize_lines_headD (lines : List ℤ) (pw : ℚ) (h2 : 2 ≤ lines.length)
    (hfirst : 1 ≤ roundHE (((lines.getD 1 0 - lines.getD 0 0 : ℤ) : ℚ) / pw)) :
    (homogenize_lines lines pw).headD 0 = lines.headD 0 := by
  match lines, h2 with
  | a :: b :: rest, _ =>
    cases hx : (a :: b :: rest : List ℤ).getLast? with
    | none => simp at hx
    | some x =>
      unfold homogenize_lines
      rw [hx]
      simp only [adjPairs_cons, List.flatMap_cons, List.headD_eq_head?, List.append_assoc,
        List.head?_append]
      have hh : (sectionL a (b - a) pw).head? = some a := by
        apply sectionL_head
        simpa using hfirst
      rw [hh]
      rfl

/-- C1, counterexample: for the sorted input `[0, 1, 10]` and positive
`pixel_width = 4` the first gap rounds to zero subdivisions, and
`homogenize_lines` drops the first coordinate `0`: the output starts at `1`,
so the first element is not preserved. -/
theorem homogenize_lines_first_dropped :
    List.Sorted (· ≤ ·) ([0, 1, 10] : List ℤ) ∧ (0 : ℚ) < 4 ∧
    ([0, 1, 10] : List ℤ).headD 0 = 0 ∧
    homogenize_lines [0, 1, 10] 4 = [1, 5, 10] ∧
    (homogenize_lines [0, 1, 10] 4).headD 0 = 1 := by with_unfolding_all decide

/-- C1, amended: for every sorted list of at least two integer coordinates and
positive `pixel_width`, `homogenize_lines` preserves the last element exactly;
it preserves the first element provided the first gap does not round to zero
subdivisions. -/
theorem homogenize_lines_preserves_ends (lines : List ℤ) (pw : ℚ)
    (h2 : 2 ≤ lines.length) (hs : List.Sorted (· ≤ ·) lines) (hpw : 0 < pw) :
    (homogenize_lines lines pw).getLastD 0 = lines.getLastD 0 ∧
    (1 ≤ roundHE (((lines.getD 1 0 - lines.getD 0 0 : ℤ) : ℚ) / pw) →
      (homogenize_lines lines pw).headD 0 = lines.headD 0) := by
  refine ⟨homogenize_lines_getLastD lines pw ?_, fun hfirst =>
    homogenize_lines_headD lines pw h2 hfirst⟩
  intro h
  rw [h] at h2
  simp at h2

theorem homogenize_lines_preserves_ends_witness :
    (homogenize_lines [0, 4, 10] 4).getLastD 0 = 10 ∧
    (homogenize_lines [0, 4, 10] 4).headD 0 = 0 := by
  have h := homogenize_lines_preserves_ends [0, 4, 10] 4 (by decide) (by decide) (by norm_num)
  exact ⟨h.1.trans (by decide), (h.2 (by with_unfolding_all decide)).trans (by decide)⟩

/-- C8: for every sorted list of at least two integer coordinates and every
`pixel_width` with `0 < pixel_width ≤` every adjacent gap, the output of
`homogenize_lines` is at least as long as the input. -/
theorem homogenize_lines_length_ge (lines : List ℤ) (pw : ℚ)
    (h2 : 2 ≤ lines.length) (hs : List.Sorted (· ≤ ·) lines) (hpw : 0 < pw)
    (hgap : ∀ p ∈ adjPairs lines, pw ≤ ((p.2 - p.1 : ℤ) : ℚ)) :
    lines.length ≤ (homogenize_lines lines pw).length := by
  cases hx : lines.getLast? with
  | none =>
    rw [List.getLast?_eq_none_iff.mp hx] at h2
    simp at h2
  | some x =>
    unfold homogenize_lines
    rw [hx]
    rw [List.length_append, List.length_flatMap]
    have hone : ∀ p ∈ adjPairs lines, 1 ≤ (sectionL p.1 (p.2 - p.1) pw).length := by
      intro p hp
      rw [sectionL_length]
      have h1 : (1 : ℚ) ≤ ((p.2 - p.1 : ℤ) : ℚ) / pw := (one_le_div hpw).mpr (hgap p hp)
      have := roundHE_ge_one h1
      omega
    have hsum := length_le_sum_of_one_le
      (fun p => (sectionL p.1 (p.2 - p.1) pw).length) (adjPairs lines) hone
    have hlen := adjPairs_length lines
    simp only [Function.comp_def] at *
    simp only [List.length_singleton]
    omega

theorem homogenize_lines_length_ge_witness :
    ([0, 4, 10] : List ℤ).length ≤ (homogenize_lines [0, 4, 10] 4).length :=
  homogenize_lines_length_ge [0, 4, 10] 4 (by decide) (by decide) (by norm_num)
    (by with_unfolding_all decide)

/-- C9, counterexample: at the sorted input `[0, 1, 10]` with `pixel_width =
4`, the first gap rounds to zero subdivisions, so `complete_grid` evaluates
`section_width / 0`; NumPy turns that into a RuntimeWarning with an unused
`inf` value, not a raised error, and `complete_grid` still returns the same
list as `homogenize_lines` instead of failing. -/
theorem complete_grid_no_failure_on_zero_gap :
    complete_grid_divzero [0, 1, 10] 4 = true ∧
    complete_grid [0, 1, 10] 4 = [1, 5, 10] ∧
    homogenize_lines [0, 1, 10] 4 = [1, 5, 10] := by with_unfolding_all decide

/-- C9, amended: the two historical variants agree on all inputs; on a gap that
rounds to zero subdivisions, `complete_grid`'s division by zero produces only
an unused NumPy warning value, and its output still equals the output of
`homogenize_lines`. -/
theorem complete_grid_agrees_homogenize (lines : List ℤ) (pw : ℚ) :
    complete_grid lines pw = homogenize_lines lines pw :=
  complete_grid_eq_homogenize_lines lines pw

/-! ### Sorted-list access lemmas -/

theorem sorted_headD_le (s : List ℤ) (hs : s.Sorted (· ≤ ·)) :
    ∀ x ∈ s, s.headD 0 ≤ x := by
  cases s with
  | nil => intro x hx; simp at hx
  | cons a rest =>
    intro x hx
    rcases List.mem_cons.mp hx with rfl | hx
    · simp
    · simpa using (List.sorted_cons.mp hs).1 x hx

theorem getLastD_mem_general {α : Type} : ∀ (l : List α) (d : α), l ≠ [] → l.getLastD d ∈ l
  | [], _, h => absurd rfl h
  | [a], d, _ => by simp
  | a :: b :: rest, d, _ => by
    have := getLastD_mem_general (b :: rest) a (by simp)
    simp only [List.getLastD_eq_getLast?, List.getLast?_cons_cons] at *
    exact List.mem_cons_of_mem a this

theorem sorted_le_getLastD : ∀ (s : List ℤ), s.Sorted (· ≤ ·) → ∀ x ∈ s, x ≤ s.getLastD 0
  | [], _, x, hx => by simp at hx
  | [a], _, x, hx => by
    rcases List.mem_cons.mp hx with rfl | h
    · simp
    · simp at h
  | a :: b :: rest', hs, x, hx => by
    rcases List.sorted_cons.mp hs with ⟨ha, hrest⟩
    have hlast : (a :: b :: rest' : List ℤ).getLastD 0 = (b :: rest' : List ℤ).getLastD 0 := by
      simp [List.getLastD_eq_getLast?, List.getLast?_cons_cons]
    rw [hlast]
    rcases List.mem_cons.mp hx with rfl | hx2
    · exact le_trans (ha b (by simp)) (sorted_le_getLastD (b :: rest') hrest b (by simp))
    · exact sorted_le_getLastD (b :: rest') hrest x hx2

theorem getD_mem_of_lt (l : List ℤ) (i : ℕ) (h : i < l.length) : l.getD i 0 ∈ l := by
  rw [List.getD_eq_getElem l 0 h]
  exact List.getElem_mem h

/-- The integer median of a nonempty sorted list lies between its first and
last element. -/
theorem intMedian_bounds (g : List ℤ) (hne : g ≠ []) (hs : g.Sorted (· ≤ ·)) :
    g.headD 0 ≤ intMedian g ∧ intMedian g ≤ g.getLastD 0 := by
  have hlen : 0 < g.length := List.length_pos.mpr hne
  unfold intMedian
  simp only [List.Sorted.insertionSort_eq hs]
  split
  · have hmem : g.getD (g.length / 2) 0 ∈ g :=
      getD_mem_of_lt g _ (Nat.div_lt_self hlen (by norm_num))
    exact ⟨sorted_headD_le g hs _ hmem, sorted_le_getLastD g hs _ hmem⟩
  · have hmem1 : g.getD (g.length / 2 - 1) 0 ∈ g :=
      getD_mem_of_lt g _ (by omega)
    have hmem2 : g.getD (g.length / 2) 0 ∈ g :=
      getD_mem_of_lt g _ (Nat.div_lt_self hlen (by norm_num))
    have h1 := sorted_headD_le g hs _ hmem1
    have h2 := sorted_headD_le g hs _ hmem2
    have h3 := sorted_le_getLastD g hs _ hmem1
    have h4 := sorted_le_getLastD g hs _ hmem2
    have hlo : ((g.headD 0 : ℤ) : ℚ) ≤
        ((g.getD (g.length / 2 - 1) 0 + g.getD (g.length / 2) 0 : ℤ) : ℚ) / 2 := by
      rw [le_div_iff (by norm_num : (0 : ℚ) < 2)]
      exact_mod_cast
        (by omega : g.headD 0 * 2 ≤ g.getD (g.length / 2 - 1) 0 + g.getD (g.length / 2) 0)
    have hhi : ((g.getD (g.length / 2 - 1) 0 + g.getD (g.length / 2) 0 : ℤ) : ℚ) / 2 ≤
        ((g.getLastD 0 : ℤ) : ℚ) := by
      rw [div_le_iff (by norm_num : (0 : ℚ) < 2)]
      exact_mod_cast
        (by omega : g.getD (g.length / 2 - 1) 0 + g.getD (g.length / 2) 0 ≤ g.getLastD 0 * 2)
    exact truncQ_bounds hlo hhi

theorem intMedian_singleton (x : ℤ) : intMedian [x] = x := by with_unfolding_all rfl

/-! ### `cluster_lines` -/

theorem reverse_getLastD (l : List ℤ) : l.reverse.getLastD 0 = l.headD 0 := by
  rw [List.getLastD_eq_getLast?, List.getLast?_reverse, List.headD_eq_head?]

theorem headD_append_left {α : Type} (l l' : List α) (d : α) (h : l ≠ []) :
    (l ++ l').headD d = l.headD d := by
  cases l with
  | nil => exact absurd rfl h
  | cons a rest => rfl

theorem chain'_of_chain'_strong {α : Type} {R S : α → α → Prop} (P : α → Prop) :
    ∀ l : List α, (∀ a ∈ l, P a) → (∀ a b, P a → P b → R a b → S a b) →
      List.Chain' R l → List.Chain' S l
  | [], _, _, _ => List.chain'_nil
  | [_], _, _, _ => List.chain'_singleton _
  | a :: b :: l, hP, himp, hc => by
    rw [List.chain'_cons] at hc ⊢
    refine ⟨himp a b (hP a (by simp)) (hP b (by simp)) hc.1, ?_⟩
    exact chain'_of_chain'_strong P (b :: l)
      (fun x hx => hP x (List.mem_cons_of_mem a hx)) himp hc.2

/-- Invariant of the greedy grouping pass: groups are nonempty and sorted, the
first group starts with the first value of the current cluster, and the gap
between the last value of one group and the first value of the next exceeds
the threshold. -/
theorem clusterGroups_spec (t : ℤ) :
    ∀ (l curRev : List ℤ), curRev ≠ [] →
      curRev.reverse.Sorted (· ≤ ·) →
      l.Sorted (· ≤ ·) →
      (∀ x ∈ l, curRev.headD 0 ≤ x) →
      (∀ g ∈ clusterGroups t curRev l, g ≠ [] ∧ g.Sorted (· ≤ ·)) ∧
      List.Chain' (fun g g' => g.getLastD 0 + t < g'.headD 0) (clusterGroups t curRev l) ∧
      ((clusterGroups t curRev l).headD []).headD 0 = curRev.reverse.headD 0 ∧
      clusterGroups t curRev l ≠ []
  | [], curRev, hne, hrev, _, _ => by
    refine ⟨?_, ?_, ?_, ?_⟩
    · intro g hg
      rw [clusterGroups, List.mem_singleton] at hg
      subst hg
      exact ⟨fun h => hne (List.reverse_eq_nil_iff.mp h), hrev⟩
    · exact List.chain'_singleton _
    · rfl
    · simp [clusterGroups]
  | p :: rest, curRev, hne, hrev, hsort, hge => by
    rcases List.sorted_cons.mp hsort with ⟨hp, hrest⟩
    have hcurp : curRev.headD 0 ≤ p := hge p (by simp)
    rw [clusterGroups]
    split
    · -- p joins the current cluster
      have hrev' : (p :: curRev).reverse.Sorted (· ≤ ·) := by
        rw [List.reverse_cons]
        rw [List.Sorted, List.pairwise_append]
        refine ⟨hrev, List.pairwise_singleton _ _, ?_⟩
        intro a ha b hb
        rw [List.mem_singleton] at hb
        subst hb
        exact le_trans (sorted_le_getLastD _ hrev a ha) (by rwa [reverse_getLastD])
      have ih := clusterGroups_spec t rest (p :: curRev) (by simp) hrev' hrest
        (fun x hx => by simpa using hp x hx)
      refine ⟨ih.1, ih.2.1, ?_, ih.2.2.2⟩
      rw [ih.2.2.1, List.reverse_cons, headD_append_left _ _ _
        (fun h => hne (List.reverse_eq_nil_iff.mp h))]
    · -- p starts a new cluster
      have hgap : curRev.headD 0 + t < p := by
        rename_i hguard
        rw [not_le, abs_of_nonneg (by omega : (0 : ℤ) ≤ p - curRev.headD 0)] at hguard
        omega
      have ih := clusterGroups_spec t rest [p] (by simp) (by simp) hrest
        (fun x hx => by simpa using hp x hx)
      refine ⟨?_, ?_, ?_, by simp⟩
      · intro g hg
        rcases List.mem_cons.mp hg with rfl | hg
        · exact ⟨fun h => hne (List.reverse_eq_nil_iff.mp h), hrev⟩
        · exact ih.1 g hg
      · rw [List.chain'_cons']
        refine ⟨?_, ih.2.1⟩
        intro y hy
        have hddly : (clusterGroups t [p] rest).headD [] = y := by
          cases hcg : clusterGroups t [p] rest with
          | nil => rw [hcg] at hy; simp at hy
          | cons z zs =>
            rw [hcg] at hy
            simpa using hy
        rw [← hddly]
        rw [ih.2.2.1]
        simpa [reverse_getLastD] using hgap
      · simp [headD_append_left]

/-- The outputs of `cluster_lines` are separated by strictly more than the
threshold, for any integer threshold. -/
theorem cluster_lines_gap_chain (L : List ℤ) (t : ℤ) :
    List.Chain' (fun a b => a + t < b) (cluster_lines L t) := by
  unfold cluster_lines
  cases hs : List.insertionSort (· ≤ ·) L with
  | nil => exact List.chain'_nil
  | cons a rest =>
    have hsort : (a :: rest).Sorted (· ≤ ·) := by
      rw [← hs]
      exact List.sorted_insertionSort (· ≤ ·) L
    rcases List.sorted_cons.mp hsort with ⟨ha, hrest⟩
    have hspec := clusterGroups_spec t rest [a] (by simp) (by simp) hrest
      (fun x hx => by simpa using ha x hx)
    rw [List.chain'_map]
    refine chain'_of_chain'_strong (fun g => g ≠ [] ∧ g.Sorted (· ≤ ·))
      (clusterGroups t [a] rest) hspec.1 ?_ hspec.2.1
    intro g g' hg hg' hrel
    have hb1 := intMedian_bounds g hg.1 hg.2
    have hb2 := intMedian_bounds g' hg'.1 hg'.2
    omega

/-- C3: for every list of integers and non-negative threshold, `cluster_lines`
returns a list in which consecutive elements differ by strictly more than the
threshold, hence strictly ascending and duplicate-free; the empty input
returns the empty list. -/
theorem cluster_lines_ascending (L : List ℤ) (t : ℤ) (ht : 0 ≤ t) :
    List.Chain' (fun a b => a + t < b) (cluster_lines L t) ∧
    List.Chain' (· < ·) (cluster_lines L t) ∧
    cluster_lines ([] : List ℤ) t = [] := by
  refine ⟨cluster_lines_gap_chain L t, ?_, rfl⟩
  exact (cluster_lines_gap_chain L t).imp (fun hab => by omega)

theorem cluster_lines_ascending_witness :
    List.Chain' (fun a b : ℤ => a + 4 < b) (cluster_lines [0, 3, 6, 9, 20] 4) ∧
    List.Chain' (· < ·) (cluster_lines [0, 3, 6, 9, 20] 4) ∧
    cluster_lines ([] : List ℤ) 4 = [] :=
  cluster_lines_ascending [0, 3, 6, 9, 20] 4 (by decide)

/-- On a list whose consecutive gaps all exceed the threshold, the grouping
pass produces only singleton clusters. -/
theorem clusterGroups_singletons (t : ℤ) (ht : 0 ≤ t) :
    ∀ (l : List ℤ) (a : ℤ), List.Chain' (fun u v => u + t < v) (a :: l) →
      clusterGroups t [a] l = (a :: l).map (fun x => [x])
  | [], a, _ => rfl
  | p :: rest, a, hc => by
    rw [List.chain'_cons] at hc
    rw [clusterGroups]
    have hguard : ¬|p - ([a] : List ℤ).headD 0| ≤ t := by
      simp only [List.headD_cons]
      rw [not_le, abs_of_nonneg (by omega : (0 : ℤ) ≤ p - a)]
      omega
    rw [if_neg hguard]
    rw [clusterGroups_singletons t ht rest p hc.2]
    rfl

/-- C4: `cluster_lines` is idempotent for every list and non-negative
threshold. -/
theorem cluster_lines_idempotent (L : List ℤ) (t : ℤ) (ht : 0 ≤ t) :
    cluster_lines (cluster_lines L t) t = cluster_lines L t := by
  have hchain := cluster_lines_gap_chain L t
  have hlt : List.Chain' (· < ·) (cluster_lines L t) := hchain.imp (fun hab => by omega)
  have hsorted : (cluster_lines L t).Sorted (· ≤ ·) :=
    (List.chain'_iff_pairwise.mp hlt).imp le_of_lt
  cases hout : cluster_lines L t with
  | nil => simp [cluster_lines]
  | cons a rest =>
    rw [hout] at hchain
    conv_lhs => rw [cluster_lines]
    rw [← hout, List.Sorted.insertionSort_eq hsorted, hout]
    simp only
    rw [clusterGroups_singletons t ht rest a hchain]
    rw [List.map_map]
    have hcomp : (intMedian ∘ fun x : ℤ => [x]) = id := funext (fun x => intMedian_singleton x)
    rw [hcomp, List.map_id]

theorem cluster_lines_idempotent_witness :
    cluster_lines (cluster_lines [0, 3, 6, 9, 20] 4) 4 = cluster_lines [0, 3, 6, 9, 20] 4 :=
  cluster_lines_idempotent [0, 3, 6, 9, 20] 4 (by decide)

/-! ### `get_pixel_width` -/

theorem medianQ_pos (l : List ℤ) (hne : l ≠ []) (hpos : ∀ x ∈ l, 0 < x) :
    0 < medianQ l := by
  have hlen : 0 < (List.insertionSort (· ≤ ·) l).length := by
    rw [List.length_insertionSort]
    exact List.length_pos.mpr hne
  have hmeml : ∀ i, i < (List.insertionSort (· ≤ ·) l).length →
      0 < (List.insertionSort (· ≤ ·) l).getD i 0 := by
    intro i hi
    apply hpos
    exact (List.perm_insertionSort (· ≤ ·) l).mem_iff.mp (getD_mem_of_lt _ i hi)
  simp only [medianQ]
  split
  · have := hmeml _ (Nat.div_lt_self hlen one_lt_two)
    exact_mod_cast this
  · have h1 := hmeml _ (by omega :
      (List.insertionSort (· ≤ ·) l).length / 2 - 1 < (List.insertionSort (· ≤ ·) l).length)
    have h2 := hmeml _ (Nat.div_lt_self hlen one_lt_two)
    apply div_pos _ (by norm_num : (0 : ℚ) < 2)
    exact_mod_cast (by omega : 0 < (List.insertionSort (· ≤ ·) l).getD
      ((List.insertionSort (· ≤ ·) l).length / 2 - 1) 0 +
      (List.insertionSort (· ≤ ·) l).getD ((List.insertionSort (· ≤ ·) l).length / 2) 0)

/-- C2, counterexample: `lines_x = [0, 0, 0, 0, 1]` and `lines_y = [5, 5]`
(each of length ≥ 2) have an adjacent gap that is strictly positive, yet
`get_pixel_width` (at its default trim fraction, `0.2 = 1/5`) returns `0`:
percentile trimming keeps only the four zero gaps, whose median is `0`. -/
theorem get_pixel_width_zero_example :
    get_pixel_width [0, 0, 0, 0, 1] [5, 5] (1/5) = 0 := by
  with_unfolding_all decide

/-- C2, amended: `get_pixel_width` is strictly positive whenever both line
lists (of length ≥ 2) are strictly increasing, i.e. when every adjacent gap is
strictly positive — for every trim fraction. -/
theorem get_pixel_width_pos (lines_x lines_y : List ℤ) (trimFrac : ℚ)
    (h2x : 2 ≤ lines_x.length) (h2y : 2 ≤ lines_y.length)
    (hsx : List.Sorted (· < ·) lines_x) (hsy : List.Sorted (· < ·) lines_y) :
    0 < get_pixel_width lines_x lines_y trimFrac := by
  have hposx : ∀ g ∈ diffsZ lines_x, 0 < g := by
    intro g hg
    rcases List.mem_map.mp hg with ⟨p, hp, rfl⟩
    have := adjPairs_rel lines_x hsx.chain' p hp
    omega
  have hposy : ∀ g ∈ diffsZ lines_y, 0 < g := by
    intro g hg
    rcases List.mem_map.mp hg with ⟨p, hp, rfl⟩
    have := adjPairs_rel lines_y hsy.chain' p hp
    omega
  have hnex : diffsZ lines_x ≠ [] := by
    refine List.length_pos.mp ?_
    rw [diffsZ, List.length_map, adjPairs_length]
    omega
  unfold get_pixel_width
  apply medianQ_pos
  · split
    · intro h
      exact hnex (List.append_eq_nil.mp h).1
    · rename_i hfalse
      intro h
      rw [h] at hfalse
      simp at hfalse
  · intro x hx
    split at hx
    · rcases List.mem_append.mp hx with h | h
      · exact hposx x h
      · exact hposy x h
    · rcases List.mem_append.mp (List.mem_filter.mp hx).1 with h | h
      · exact hposx x h
      · exact hposy x h

theorem get_pixel_width_pos_witness :
    0 < get_pixel_width [0, 10, 20] [0, 10] (1/5) :=
  get_pixel_width_pos [0, 10, 20] [0, 10] (1/5) (by decide) (by decide) (by decide) (by decide)

/-! ### `compute_mse` -/

/-- C7: `compute_mse` raises exactly when the two arrays obtained after the
optional `region_box` crop have different shapes; when the shapes agree it
returns the finite mean of squared pixel differences (never an infinite
sentinel: a mismatch is an error, not a value). -/
theorem compute_mse_spec (a b : NDImg) (box : Option (ℤ × ℤ × ℤ × ℤ)) :
    (compute_mse a b box = Except.error "Shapes do not match." ↔
      ¬((regionOf a box).h = (regionOf b box).h ∧ (regionOf a box).w = (regionOf b box).w ∧
        (regionOf a box).c = (regionOf b box).c)) ∧
    (((regionOf a box).h = (regionOf b box).h ∧ (regionOf a box).w = (regionOf b box).w ∧
        (regionOf a box).c = (regionOf b box).c) →
      compute_mse a b box = Except.ok (meanSq (regionOf a box) (regionOf b box))) := by
  simp only [compute_mse]
  split
  · rename_i hsh
    exact ⟨⟨fun h => by simp at h, fun h => absurd hsh h⟩, fun _ => rfl⟩
  · rename_i hsh
    exact ⟨⟨fun _ => hsh, fun _ => rfl⟩, fun h => absurd h hsh⟩

theorem compute_mse_spec_witness :
    compute_mse constImgA constImgB none = Except.ok 4 ∧
    compute_mse constImgA (cropImg constImgB 0 0 2 2) none = Except.error "Shapes do not match." := by
  constructor
  · have h := (compute_mse_spec constImgA constImgB none).2 ⟨rfl, rfl, rfl⟩
    rw [h]
    have : meanSq (regionOf constImgA none) (regionOf constImgB none) = 4 := by
      with_unfolding_all decide
    rw [this]
  · exact (compute_mse_spec constImgA (cropImg constImgB 0 0 2 2) none).1.mpr
      (by intro h; exact absurd h.2.1 (by with_unfolding_all decide))

/-! ### Scale/offset search -/

theorem searchStep_preserves (f : ℕ × ℤ × ℤ → ℚ) (d : ℕ × ℤ × ℤ → Option NDImg)
    (done : List (ℕ × ℤ × ℤ)) (st : SearchState) (c : ℕ × ℤ × ℤ)
    (hinv : SearchInv f done st) : SearchInv f (done ++ [c]) (searchStep f d st c) := by
  cases hmse : st.mse with
  | none =>
    have hdone : done = [] := (hinv.1 hmse).1
    subst hdone
    have hred : searchStep f d st c = ⟨c.1, (c.2.2, c.2.1), some (f c), d c⟩ := by
      unfold searchStep
      rw [hmse]
    rw [hred]
    constructor
    · intro h
      simp at h
    · intro q hq
      have hfq : f c = q := by
        simpa using hq
      refine ⟨[], c, [], by simp, hfq, rfl, rfl, ?_, ?_⟩
      · intro e he
        simp at he
      · intro e he
        have hec : e = c := by simpa using he
        subst hec
        exact le_of_eq hfq.symm
  | some b =>
    rcases hinv.2 b hmse with ⟨pre, c0, suf, hdec, hfc0, hscale, hoffset, hpre, hall⟩
    have hred : searchStep f d st c =
        if f c < b then ⟨c.1, (c.2.2, c.2.1), some (f c), d c⟩ else st := by
      unfold searchStep
      rw [hmse]
    rw [hred]
    split
    · -- f c < b : the best candidate is replaced
      rename_i hlt
      constructor
      · intro h
        simp at h
      · intro q hq
        have hfq : f c = q := by
          simpa using hq
        refine ⟨done, c, [], by simp, hfq, rfl, rfl, ?_, ?_⟩
        · intro e he
          have := hall e he
          linarith [hfq]
        · intro e he
          rcases List.mem_append.mp he with he | he
          · have := hall e he
            linarith [hfq]
          · have hec : e = c := List.mem_singleton.mp he
            subst hec
            exact le_of_eq hfq.symm
    · -- f c is not an improvement: the state is unchanged
      rename_i hnlt
      have hble : b ≤ f c := not_lt.mp hnlt
      constructor
      · intro h
        rw [h] at hmse
        simp at hmse
      · intro q hq
        rw [hmse] at hq
        have hbq : b = q := by
          simpa using hq
        subst hbq
        refine ⟨pre, c0, suf ++ [c], by rw [hdec]; simp, hfc0, hscale, hoffset, hpre, ?_⟩
        intro e he
        rcases List.mem_append.mp he with he | he
        · exact hall e he
        · have hec : e = c := List.mem_singleton.mp he
          subst hec
          exact hble

theorem searchFold_go (f : ℕ × ℤ × ℤ → ℚ) (d : ℕ × ℤ × ℤ → Option NDImg) :
    ∀ (l done : List (ℕ × ℤ × ℤ)) (st : SearchState), SearchInv f done st →
      SearchInv f (done ++ l) (l.foldl (searchStep f d) st)
  | [], done, st, hinv => by simpa using hinv
  | c :: l, done, st, hinv => by
    have h1 := searchStep_preserves f d done st c hinv
    have h2 := searchFold_go f d l (done ++ [c]) (searchStep f d st c) h1
    simpa using h2

theorem searchFold_inv (f : ℕ × ℤ × ℤ → ℚ) (d : ℕ × ℤ × ℤ → Option NDImg)
    (l : List (ℕ × ℤ × ℤ)) : SearchInv f l (searchFold f d l) := by
  have h0 : SearchInv f [] (⟨1, (0, 0), none, none⟩ : SearchState) := by
    constructor
    · intro _
      exact ⟨rfl, rfl, rfl⟩
    · intro q hq
      simp at hq
  simpa using searchFold_go f d l [] ⟨1, (0, 0), none, none⟩ h0

/-- C6: the search returns a candidate whose MSE is less than or equal to the
MSE of every enumerated `(scale, offset_x, offset_y)` candidate, and among
candidates of equal minimal MSE it returns the first one in iteration order
(scale ascending outermost, then `offset_y`, then `offset_x`; the `candTriples`
list is built in exactly that order), because the best-so-far is replaced only
on strictly smaller MSE. -/
theorem estimate_scale_first_argmin (img : NDImg) (maxScale maxOffset : ℕ) :
    (∀ cand ∈ candTriples img.w img.h maxScale maxOffset, ∀ q,
        (estimate_scale_factor_with_offset img maxScale maxOffset).mse = some q →
          q ≤ mseOf img cand) ∧
    (∀ q, (estimate_scale_factor_with_offset img maxScale maxOffset).mse = some q →
        ∃ pre cand suf, candTriples img.w img.h maxScale maxOffset = pre ++ cand :: suf ∧
          mseOf img cand = q ∧
          (estimate_scale_factor_with_offset img maxScale maxOffset).scale = cand.1 ∧
          (estimate_scale_factor_with_offset img maxScale maxOffset).offset =
            (cand.2.2, cand.2.1) ∧
          ∀ e ∈ pre, q < mseOf img e) := by
  have hinv := searchFold_inv (mseOf img) (downOf img)
    (candTriples img.w img.h maxScale maxOffset)
  constructor
  · intro cand hcand q hq
    rcases hinv.2 q hq with ⟨_, _, _, _, _, _, _, _, hall⟩
    exact hall cand hcand
  · intro q hq
    rcases hinv.2 q hq with ⟨pre, c0, suf, hdec, hfc0, hscale, hoffset, hpre, _⟩
    exact ⟨pre, c0, suf, hdec, hfc0, hscale, hoffset, hpre⟩

theorem estimate_scale_first_argmin_witness :
    (estimate_scale_factor_with_offset rampImg3 3 0).mse = some (20/3) ∧
    (20/3 : ℚ) ≤ mseOf rampImg3 (3, 0, 0) := by
  constructor
  · with_unfolding_all decide
  · exact (estimate_scale_first_argmin rampImg3 3 0).1 (3, 0, 0)
      (by with_unfolding_all decide) (20/3) (by with_unfolding_all decide)

/-! ### Mode color and `downsample` -/

theorem getD_mem_of_lt' {α : Type} (l : List α) (d : α) (i : ℕ) (h : i < l.length) :
    l.getD i d ∈ l := by
  rw [List.getD_eq_getElem l d h]
  exact List.getElem_mem h

theorem sorted_getD_lt (l : List ℕ) (hs : List.Sorted (· < ·) l) (i : ℕ)
    (h : i + 1 < l.length) : l.getD i 0 < l.getD (i + 1) 0 := by
  have hrel := List.Sorted.rel_get_of_lt hs (a := ⟨i, by omega⟩) (b := ⟨i + 1, h⟩)
    (by simp [Fin.lt_def])
  rw [List.getD_eq_getElem l 0 (by omega : i < l.length), List.getD_eq_getElem l 0 h]
  simpa using hrel

theorem keysFirst_subset : ∀ l : List Color, keysFirst l ⊆ l
  | [] => by simp [keysFirst]
  | c :: rest => by
    rw [keysFirst]
    intro x hx
    rcases List.mem_cons.mp hx with rfl | hx
    · exact List.mem_cons_self _ _
    · exact List.mem_cons_of_mem c
        (List.mem_of_mem_filter (keysFirst_subset (rest.filter (fun d => d ≠ c)) hx))
termination_by l => l.length
decreasing_by simp only [List.length_cons]; exact Nat.lt_succ_of_le (List.length_filter_le _ _)

theorem keysFirst_ne_nil (l : List Color) (hne : l ≠ []) : keysFirst l ≠ [] := by
  cases l with
  | nil => exact absurd rfl hne
  | cons c rest =>
    rw [keysFirst]
    simp

theorem foldr_max_le (ns : List ℕ) : ∀ x ∈ ns, x ≤ ns.foldr max 0 := by
  induction ns with
  | nil => intro x hx; simp at hx
  | cons a rest ih =>
    intro x hx
    rcases List.mem_cons.mp hx with rfl | hx
    · simp [List.foldr_cons]
    · exact le_trans (ih x hx) (by simp [List.foldr_cons])

theorem foldr_max_mem (ns : List ℕ) : ns.foldr max 0 = 0 ∨ ns.foldr max 0 ∈ ns := by
  induction ns with
  | nil => exact Or.inl rfl
  | cons a rest ih =>
    rw [List.foldr_cons]
    rcases le_total a (rest.foldr max 0) with h | h
    · rw [max_eq_right h]
      rcases ih with h0 | hmem
      · exact Or.inl h0
      · exact Or.inr (List.mem_cons_of_mem a hmem)
    · rw [max_eq_left h]
      exact Or.inr (List.mem_cons_self a rest)

theorem mostCommon1_exists (l : List Color) (hne : l ≠ []) :
    ∃ k, mostCommon1 l = some k ∧ k ∈ l := by
  have hks : keysFirst l ≠ [] := keysFirst_ne_nil l hne
  have hex : ∃ x ∈ keysFirst l,
      (fun k => decide (l.count k = ((keysFirst l).map (fun k => l.count k)).foldr max 0)) x
        = true := by
    rcases foldr_max_mem ((keysFirst l).map (fun k => l.count k)) with h0 | hmem
    · -- the max of the counts cannot be zero: every key occurs in `l`
      exfalso
      cases hk : keysFirst l with
      | nil => exact hks hk
      | cons k0 rest =>
        have hk0l : k0 ∈ l := keysFirst_subset l (by rw [hk]; exact List.mem_cons_self _ _)
        have hcnt : 1 ≤ l.count k0 := List.count_pos_iff.mpr hk0l
        have hle : l.count k0 ≤ ((keysFirst l).map (fun k => l.count k)).foldr max 0 :=
          foldr_max_le _ _ (List.mem_map.mpr ⟨k0, by rw [hk]; exact List.mem_cons_self _ _, rfl⟩)
        omega
    · rcases List.mem_map.mp hmem with ⟨k, hkmem, hkeq⟩
      exact ⟨k, hkmem, by simp [hkeq]⟩
  have hsome := List.find?_isSome.mpr hex
  rcases Option.isSome_iff_exists.mp hsome with ⟨k, hk⟩
  refine ⟨k, ?_, keysFirst_subset l (List.mem_of_find?_eq_some hk)⟩
  simp only [mostCommon1]
  exact hk

theorem keysFirst_const : ∀ (l : List Color) (c : Color), (∀ x ∈ l, x = c) → l ≠ [] →
    keysFirst l = [c]
  | [], _, _, hne => absurd rfl hne
  | x :: rest, c, hall, _ => by
    have hx : x = c := hall x (List.mem_cons_self x rest)
    subst hx
    rw [keysFirst]
    have hfil : rest.filter (fun d => d ≠ x) = [] := by
      rw [List.filter_eq_nil]
      intro a ha
      simp [hall a (List.mem_cons_of_mem x ha)]
    rw [hfil, keysFirst]

theorem mostCommon1_const (l : List Color) (c : Color) (hall : ∀ x ∈ l, x = c)
    (hne : l ≠ []) : mostCommon1 l = some c := by
  simp only [mostCommon1]
  rw [keysFirst_const l c hall hne]
  simp [List.find?]

theorem mem_cellPixels (img : RgbImg) (x0 x1 y0 y1 : ℕ)
    (hx1 : x1 ≤ img.w) (hy1 : y1 ≤ img.h) (z : Color) :
    z ∈ cellPixels img x0 x1 y0 y1 ↔
      ∃ y x, y0 ≤ y ∧ y < y1 ∧ x0 ≤ x ∧ x < x1 ∧ z = img.px y x := by
  unfold cellPixels
  rw [min_eq_left hy1, min_eq_left hx1]
  constructor
  · intro hz
    rcases List.mem_flatMap.mp hz with ⟨y, hy, hz⟩
    rcases List.mem_map.mp hz with ⟨x, hx, rfl⟩
    rw [List.mem_range'_1] at hy hx
    exact ⟨y, x, hy.1, by omega, hx.1, by omega, rfl⟩
  · rintro ⟨y, x, h1, h2, h3, h4, rfl⟩
    refine List.mem_flatMap.mpr ⟨y, ?_, ?_⟩
    · rw [List.mem_range'_1]
      omega
    · exact List.mem_map.mpr ⟨x, by rw [List.mem_range'_1]; omega, rfl⟩

theorem mapME_ok {α β : Type} (g : α → β) :
    ∀ (l : List α) (f : α → Except String β), (∀ a ∈ l, f a = Except.ok (g a)) →
      mapME l f = Except.ok (l.map g)
  | [], _, _ => rfl
  | a :: rest, f, h => by
    have h1 : f a = Except.ok (g a) := h a (List.mem_cons_self a rest)
    have h2 : mapME rest f = Except.ok (rest.map g) :=
      mapME_ok g rest f (fun x hx => h x (List.mem_cons_of_mem a hx))
    simp only [mapME, h1, h2]
    rw [List.map_cons]

theorem cell_ok (img : RgbImg) (lines_x lines_y : List ℕ)
    (hcx : List.Sorted (· < ·) lines_x) (hcy : List.Sorted (· < ·) lines_y)
    (hbx : ∀ x ∈ lines_x, x < img.w) (hby : ∀ y ∈ lines_y, y < img.h)
    (j i : ℕ) (hj : j + 1 < lines_y.length) (hi : i + 1 < lines_x.length) :
    get_cell_color (cellPixels img (lines_x.getD i 0) (lines_x.getD (i + 1) 0)
        (lines_y.getD j 0) (lines_y.getD (j + 1) 0)) =
      Except.ok (cellColorAt img lines_x lines_y j i) ∧
    cellColorAt img lines_x lines_y j i ∈
      cellPixels img (lines_x.getD i 0) (lines_x.getD (i + 1) 0)
        (lines_y.getD j 0) (lines_y.getD (j + 1) 0) := by
  have hx01 : lines_x.getD i 0 < lines_x.getD (i + 1) 0 := sorted_getD_lt lines_x hcx i hi
  have hy01 : lines_y.getD j 0 < lines_y.getD (j + 1) 0 := sorted_getD_lt lines_y hcy j hj
  have hx1w : lines_x.getD (i + 1) 0 ≤ img.w :=
    le_of_lt (hbx _ (getD_mem_of_lt' lines_x 0 (i + 1) hi))
  have hy1h : lines_y.getD (j + 1) 0 ≤ img.h :=
    le_of_lt (hby _ (getD_mem_of_lt' lines_y 0 (j + 1) hj))
  have hmem0 : img.px (lines_y.getD j 0) (lines_x.getD i 0) ∈
      cellPixels img (lines_x.getD i 0) (lines_x.getD (i + 1) 0)
        (lines_y.getD j 0) (lines_y.getD (j + 1) 0) :=
    (mem_cellPixels img _ _ _ _ hx1w hy1h _).mpr
      ⟨lines_y.getD j 0, lines_x.getD i 0, le_refl _, hy01, le_refl _, hx01, rfl⟩
  have hne := List.ne_nil_of_mem hmem0
  rcases mostCommon1_exists _ hne with ⟨k, hk, hkmem⟩
  have hcca : cellColorAt img lines_x lines_y j i = k := by
    simp only [cellColorAt]
    rw [hk]
    rfl
  refine ⟨?_, ?_⟩
  · simp only [get_cell_color, hk, hcca]
  · rw [hcca]
    exact hkmem

theorem downsample_core (img : RgbImg) (lines_x lines_y : List ℕ)
    (hcx : List.Sorted (· < ·) lines_x) (hcy : List.Sorted (· < ·) lines_y)
    (hbx : ∀ x ∈ lines_x, x < img.w) (hby : ∀ y ∈ lines_y, y < img.h) :
    downsample img lines_x lines_y = Except.ok
      ((List.range (lines_y.length - 1)).map (fun j =>
        (List.range (lines_x.length - 1)).map (fun i => cellColorAt img lines_x lines_y j i))) := by
  unfold downsample
  apply mapME_ok (fun j =>
    (List.range (lines_x.length - 1)).map (fun i => cellColorAt img lines_x lines_y j i))
  intro j hj
  apply mapME_ok (fun i => cellColorAt img lines_x lines_y j i)
  intro i hi
  have hj2 : j + 1 < lines_y.length := by
    have := List.mem_range.mp hj
    omega
  have hi2 : i + 1 < lines_x.length := by
    have := List.mem_range.mp hi
    omega
  exact (cell_ok img lines_x lines_y hcx hcy hbx hby j i hj2 hi2).1

theorem map_grid_getD {β : Type} (g : ℕ → β) (n j : ℕ) (d : β) (hj : j < n) :
    ((List.range n).map g).getD j d = g j := by
  rw [List.getD_eq_getElem _ _ (by simpa using hj)]
  simp

/-- C5: for every image and mesh with strictly increasing in-bounds
coordinates, `downsample` succeeds with exactly `(len(lines_y)-1)` rows of
`(len(lines_x)-1)` pixels each, in row/column order, and if every cell region
of the source is filled with a single solid color then output pixel `(j, i)`
is exactly that cell's color. -/
theorem downsample_dims_and_solid (img : RgbImg) (lines_x lines_y : List ℕ)
    (f : ℕ → ℕ → Color)
    (h2x : 2 ≤ lines_x.length) (h2y : 2 ≤ lines_y.length)
    (hcx : List.Sorted (· < ·) lines_x) (hcy : List.Sorted (· < ·) lines_y)
    (hbx : ∀ x ∈ lines_x, x < img.w) (hby : ∀ y ∈ lines_y, y < img.h) :
    ∃ out, downsample img lines_x lines_y = Except.ok out ∧
      out.length = lines_y.length - 1 ∧
      (∀ row ∈ out, row.length = lines_x.length - 1) ∧
      ((∀ j i y x, j + 1 < lines_y.length → i + 1 < lines_x.length →
          lines_y.getD j 0 ≤ y → y < lines_y.getD (j + 1) 0 →
          lines_x.getD i 0 ≤ x → x < lines_x.getD (i + 1) 0 →
          img.px y x = f j i) →
        ∀ j i, j + 1 < lines_y.length → i + 1 < lines_x.length →
          (out.getD j []).getD i (0, 0, 0) = f j i) := by
  refine ⟨_, downsample_core img lines_x lines_y hcx hcy hbx hby, by simp, ?_, ?_⟩
  · intro row hrow
    rcases List.mem_map.mp hrow with ⟨j, _, rfl⟩
    simp
  · intro hsolid j i hj hi
    rw [map_grid_getD _ _ _ _ (by omega), map_grid_getD _ _ _ _ (by omega)]
    have hx1w : lines_x.getD (i + 1) 0 ≤ img.w :=
      le_of_lt (hbx _ (getD_mem_of_lt' lines_x 0 (i + 1) hi))
    have hy1h : lines_y.getD (j + 1) 0 ≤ img.h :=
      le_of_lt (hby _ (getD_mem_of_lt' lines_y 0 (j + 1) hj))
    have hallc : ∀ z ∈ cellPixels img (lines_x.getD i 0) (lines_x.getD (i + 1) 0)
        (lines_y.getD j 0) (lines_y.getD (j + 1) 0), z = f j i := by
      intro z hz
      rcases (mem_cellPixels img _ _ _ _ hx1w hy1h z).mp hz with ⟨y, x, h1, h2, h3, h4, rfl⟩
      exact hsolid j i y x hj hi h1 h2 h3 h4
    have hx01 : lines_x.getD i 0 < lines_x.getD (i + 1) 0 := sorted_getD_lt lines_x hcx i hi
    have hy01 : lines_y.getD j 0 < lines_y.getD (j + 1) 0 := sorted_getD_lt lines_y hcy j hj
    have hmem0 : img.px (lines_y.getD j 0) (lines_x.getD i 0) ∈
        cellPixels img (lines_x.getD i 0) (lines_x.getD (i + 1) 0)
          (lines_y.getD j 0) (lines_y.getD (j + 1) 0) :=
      (mem_cellPixels img _ _ _ _ hx1w hy1h _).mpr
        ⟨lines_y.getD j 0, lines_x.getD i 0, le_refl _, hy01, le_refl _, hx01, rfl⟩
    have hconst := mostCommon1_const _ (f j i) hallc (List.ne_nil_of_mem hmem0)
    simp only [cellColorAt, hconst]
    rfl

theorem downsample_dims_and_solid_witness :
    ∃ out, downsample solidRgb2 [0, 1] [0, 1] = Except.ok out ∧
      out.length = 1 ∧ (∀ row ∈ out, row.length = 1) := by
  rcases downsample_dims_and_solid solidRgb2 [0, 1] [0, 1] (fun _ _ => (7, 7, 7))
    (by decide) (by decide) (by decide) (by decide) (by decide) (by decide)
    with ⟨out, hok, hlen, hrow, _⟩
  exact ⟨out, hok, hlen, hrow⟩

/-- C10: for every image and mesh with strictly increasing in-bounds
coordinates, every cell block is nonempty, so `downsample` never hits
`get_cell_color`'s error branch, and every returned cell color occurs among
that cell's source pixels. -/
theorem downsample_colors_occur (img : RgbImg) (lines_x lines_y : List ℕ)
    (h2x : 2 ≤ lines_x.length) (h2y : 2 ≤ lines_y.length)
    (hcx : List.Sorted (· < ·) lines_x) (hcy : List.Sorted (· < ·) lines_y)
    (hbx : ∀ x ∈ lines_x, x < img.w) (hby : ∀ y ∈ lines_y, y < img.h) :
    ∃ out, downsample img lines_x lines_y = Except.ok out ∧
      ∀ j i, j + 1 < lines_y.length → i + 1 < lines_x.length →
        (out.getD j []).getD i (0, 0, 0) ∈
          cellPixels img (lines_x.getD i 0) (lines_x.getD (i + 1) 0)
            (lines_y.getD j 0) (lines_y.getD (j + 1) 0) := by
  refine ⟨_, downsample_core img lines_x lines_y hcx hcy hbx hby, ?_⟩
  intro j i hj hi
  rw [map_grid_getD _ _ _ _ (by omega), map_grid_getD _ _ _ _ (by omega)]
  exact (cell_ok img lines_x lines_y hcx hcy hbx hby j i hj hi).2

theorem downsample_colors_occur_witness :
    ∃ out, downsample solidRgb2 [0, 1] [0, 1] = Except.ok out ∧
      (out.getD 0 []).getD 0 (0, 0, 0) ∈ cellPixels solidRgb2 0 1 0 1 := by
  rcases downsample_colors_occur solidRgb2 [0, 1] [0, 1]
    (by decide) (by decide) (by decide) (by decide) (by decide) (by decide)
    with ⟨out, hok, hmem⟩
  exact ⟨out, hok, hmem 0 0 (by decide) (by decide)⟩
